import Mathlib

/-!
Verification of `fix_xcode_project.py`, a one-pass line-filter utility.

The script reads `XCAChatGPT.xcodeproj/project.pbxproj`, splits its content
on `'\n'`, drops every line that contains one of seven fixed filename
substrings unless the line also contains the exception marker
`PDFDrawerComponents.swift`, rejoins the kept lines with `'\n'`, and writes
the result back.

We embed the text as `List Char`; Python's substring test `s in line`
becomes the list-infix relation `s <:+: line`.
-/

namespace FixXcodeProject

/-- A line of text, as the list of its characters. -/
abbrev Line := List Char

/-- The fixed exclusion list `files_to_remove` from the script. -/
def files_to_remove : List Line :=
  [ "PDFViewWrapper.swift".data,
    "PDFDrawerContainer.swift".data,
    "RightSideDrawerView.swift".data,
    "PDFFormFieldsView.swift".data,
    "PDFManager.swift".data,
    "SamplePDFTestView.swift".data,
    "PDFDrawerExampleView.swift".data ]

/-- The exception marker `'PDFDrawerComponents.swift'` hard-coded in the
condition of the inner loop. -/
def exceptionMarker : Line := "PDFDrawerComponents.swift".data

/-- The inner `for filename in files_to_remove` loop of the script: it sets
`should_keep = False` and breaks as soon as some `filename` is contained in
the line while the exception marker is not. -/
def keepLoop (line : Line) : List Line → Bool
  | [] => true
  | filename :: rest =>
    if filename <:+: line ∧ ¬ exceptionMarker <:+: line then false
    else keepLoop line rest

/-- The per-line keep decision (`should_keep` after the loop finishes). -/
def should_keep (line : Line) : Bool := keepLoop line files_to_remove

/-- The outer loop building `filtered_lines`: keep exactly the lines whose
`should_keep` flag survives the inner loop. -/
def filtered_lines (lines : List Line) : List Line :=
  lines.filter should_keep

/-- The whole in-memory transformation of the script:
`'\n'.join(filtered_lines)` applied to `content.split('\n')`. -/
def fix_content (content : List Char) : List Char :=
  List.intercalate ['\n'] (filtered_lines (content.splitOn '\n'))

/-- The state of the target file: whether the open-for-read succeeds, and
the current content. -/
structure FileState where
  readable : Bool
  content : List Char
deriving DecidableEq

/-- Observable I/O events of one run of the script, in program order. -/
inductive Event where
  | readOk : List Char → Event
  | write : List Char → Event
  | printSuccess : Event
deriving DecidableEq

/-- One run of the script over the modelled file: the read at the top is
attempted first; only if it succeeds does control reach the filter and the
write-back at the bottom.  A failed read aborts the run with the file
untouched and no further event. -/
def run_tool (f : FileState) : FileState × List Event :=
  if f.readable then
    ({ f with content := fix_content f.content },
      [Event.readOk f.content, Event.write (fix_content f.content),
        Event.printSuccess])
  else
    (f, [])

/-- `keepLoop` returns `true` exactly when the line contains the exception
marker or none of the scanned filenames occurs in it. -/
lemma keepLoop_eq_true_iff (line : Line) (fs : List Line) :
    keepLoop line fs = true ↔
      (exceptionMarker <:+: line ∨ ∀ f ∈ fs, ¬ f <:+: line) := by
  induction fs with
  | nil => simp [keepLoop]
  | cons a rest ih =>
    by_cases h : a <:+: line ∧ ¬ exceptionMarker <:+: line
    · simp only [keepLoop, if_pos h]
      constructor
      · intro hfalse
        exact absurd hfalse (by simp)
      · rintro (hm | hall)
        · exact absurd hm h.2
        · exact absurd h.1 (hall a (List.mem_cons_self a rest))
    · simp only [keepLoop, if_neg h, ih]
      constructor
      · rintro (hm | hall)
        · exact Or.inl hm
        · by_cases hm : exceptionMarker <:+: line
          · exact Or.inl hm
          · refine Or.inr ?_
            intro f hf
            rcases List.mem_cons.1 hf with rfl | hf
            · intro hinf
              exact h ⟨hinf, hm⟩
            · exact hall f hf
      · rintro (hm | hall)
        · exact Or.inl hm
        · exact Or.inr fun f hf => hall f (List.mem_cons_of_mem a hf)

/-- Characterisation of the per-line decision. -/
lemma should_keep_eq_true_iff (line : Line) :
    should_keep line = true ↔
      (exceptionMarker <:+: line ∨ ∀ f ∈ files_to_remove, ¬ f <:+: line) :=
  keepLoop_eq_true_iff line files_to_remove

/-- Appending one element to a nonempty list adds one separator and the
element at the end of the interspersed list. -/
lemma intersperse_concat {α : Type} (sep b : α) (F : List α) (h : F ≠ []) :
    List.intersperse sep (F ++ [b]) = List.intersperse sep F ++ [sep, b] := by
  induction F with
  | nil => exact absurd rfl h
  | cons a t ih =>
    cases t with
    | nil => rfl
    | cons c t2 =>
      have h2 := ih (List.cons_ne_nil c t2)
      calc List.intersperse sep (a :: c :: t2 ++ [b])
          = a :: sep :: List.intersperse sep (c :: t2 ++ [b]) := rfl
        _ = a :: sep :: (List.intersperse sep (c :: t2) ++ [sep, b]) := by
            rw [h2]
        _ = List.intersperse sep (a :: c :: t2) ++ [sep, b] := rfl

/-- Joining a nonempty list of chunks with an empty chunk appended yields the
join of the original chunks followed by one separator. -/
lemma intercalate_concat_nil {α : Type} (sep : List α) (F : List (List α))
    (h : F ≠ []) :
    List.intercalate sep (F ++ [([] : List α)]) =
      List.intercalate sep F ++ sep := by
  rw [List.intercalate, List.intercalate, intersperse_concat sep [] F h,
    List.flatten_append]
  simp

/-- Splitting a list that ends with a separator produces the split of the
rest followed by one trailing empty chunk. -/
lemma splitOnP_concat {α : Type} (p : α → Bool) (sep : α)
    (hsep : p sep = true) (xs : List α) :
    (xs ++ [sep]).splitOnP p = xs.splitOnP p ++ [[]] := by
  induction xs with
  | nil => simp [List.splitOnP_cons, hsep]
  | cons x t ih =>
    rw [List.cons_append, List.splitOnP_cons, List.splitOnP_cons, ih]
    by_cases hx : p x
    · simp [hx]
    · simp only [hx, Bool.false_eq_true, if_false]
      cases hsp : t.splitOnP p with
      | nil => exact absurd hsp (List.splitOnP_ne_nil p t)
      | cons a t2 => simp

/-- Specialisation to splitting character lists on the newline character. -/
lemma splitOn_concat_newline (xs : List Char) :
    (xs ++ ['\n']).splitOn '\n' = xs.splitOn '\n' ++ [[]] := by
  simp only [List.splitOn]
  exact splitOnP_concat _ '\n' (by simp) xs

/-- Claim C1: a line is kept by the filter if and only if it contains the
exception marker or contains none of the seven exclusion substrings; hence
every output line is an input line satisfying that disjunction. -/
theorem spec_C1 (doc : List Line) (l : Line) :
    l ∈ filtered_lines doc ↔
      l ∈ doc ∧
        (exceptionMarker <:+: l ∨ ∀ f ∈ files_to_remove, ¬ f <:+: l) := by
  rw [filtered_lines, List.mem_filter, should_keep_eq_true_iff]

/-- Claim C2: the line filter is idempotent; filtering its own output
changes nothing. -/
theorem spec_C2 (doc : List Line) :
    filtered_lines (filtered_lines doc) = filtered_lines doc := by
  simp only [filtered_lines]
  induction doc with
  | nil => rfl
  | cons a t ih =>
    cases h : should_keep a <;> simp [List.filter_cons, h, ih]

/-- Claim C3: the output line sequence is a sublist (order-preserving,
verbatim subsequence) of the input line sequence. -/
theorem spec_C3 (doc : List Line) : List.Sublist (filtered_lines doc) doc := by
  rw [filtered_lines]
  exact List.filter_sublist doc

/-- Claim C4: a content in which every line is kept is reproduced
byte-identically by the split-filter-join pipeline. -/
theorem spec_C4 (content : List Char)
    (h : ∀ l ∈ content.splitOn '\n', should_keep l = true) :
    fix_content content = content := by
  rw [fix_content, filtered_lines, List.filter_eq_self.2 h,
    List.intercalate_splitOn]

/-- Witness for C4 at the concrete two-line content `hello\nworld`. -/
theorem spec_C4_witness :
    (∀ l ∈ ("hello\nworld".data).splitOn '\n', should_keep l = true) ∧
      fix_content "hello\nworld".data = "hello\nworld".data :=
  ⟨by decide, spec_C4 _ (by decide)⟩

/-- Claim C5: on the spec's concrete lines, `PDFViewWrapper.swift` is
dropped, the line containing both an exclusion target and the exception
marker is kept verbatim, and `main.swift` is kept verbatim. -/
theorem spec_C5 :
    filtered_lines
        [ "PDFViewWrapper.swift".data,
          "PDFDrawerContainer.swift, PDFDrawerComponents.swift".data,
          "main.swift".data ] =
      [ "PDFDrawerContainer.swift, PDFDrawerComponents.swift".data,
        "main.swift".data ] := by
  decide

/-- Claim C6: when the read fails, the run performs no write event and
leaves the file state unchanged. -/
theorem spec_C6 (f : FileState) (h : f.readable = false) :
    (run_tool f).1 = f ∧ ∀ c, Event.write c ∉ (run_tool f).2 := by
  simp [run_tool, h]

/-- Witness for C6 at a concrete unreadable file. -/
theorem spec_C6_witness :
    (FileState.mk false "x".data).readable = false ∧
      ((run_tool (FileState.mk false "x".data)).1 =
          FileState.mk false "x".data ∧
        ∀ c, Event.write c ∉ (run_tool (FileState.mk false "x".data)).2) :=
  ⟨rfl, spec_C6 _ rfl⟩

/-- Claim C8: the filter never increases the number of lines. -/
theorem spec_C8 (doc : List Line) :
    (filtered_lines doc).length ≤ doc.length := by
  rw [filtered_lines]
  exact List.length_filter_le _ _

/-- Claim C9, counterexample: the content `PDFViewWrapper.swift\n` ends
with a newline, yet the pipeline output is empty: the trailing newline is
not preserved when every other line is dropped. -/
theorem spec_C9_counterexample :
    ("PDFViewWrapper.swift\n".data).getLast? = some '\n' ∧
      (fix_content ("PDFViewWrapper.swift\n".data)).getLast? ≠ some '\n' := by
  decide

/-- Claim C9, amended: an empty line is always retained, and if at least one
line of the content before the trailing newline survives the filter, then
the trailing newline is preserved by the pipeline. -/
theorem spec_C9 (c : List Char)
    (h : filtered_lines (c.splitOn '\n') ≠ []) :
    should_keep [] = true ∧
      fix_content (c ++ ['\n']) = fix_content c ++ ['\n'] := by
  have hnil : should_keep ([] : Line) = true := by decide
  refine ⟨hnil, ?_⟩
  rw [fix_content, fix_content, splitOn_concat_newline, filtered_lines,
    filtered_lines, List.filter_append]
  rw [show List.filter should_keep [([] : Line)] = [([] : Line)] by
    simp [hnil]]
  exact intercalate_concat_nil ['\n'] _ h

/-- Witness for C9 at the concrete content `main.swift`. -/
theorem spec_C9_witness :
    filtered_lines (("main.swift".data).splitOn '\n') ≠ [] ∧
      (should_keep [] = true ∧
        fix_content ("main.swift".data ++ ['\n']) =
          fix_content "main.swift".data ++ ['\n']) :=
  ⟨by decide, spec_C9 _ (by decide)⟩

/-- Claim C10: the keep decision is per-line, so the filter distributes over
concatenation of line sequences. -/
theorem spec_C10 (A B : List Line) :
    filtered_lines (A ++ B) = filtered_lines A ++ filtered_lines B := by
  simp [filtered_lines, List.filter_append]

end FixXcodeProject
